import Mathlib

/-!
# Verification of the `probability` crate against its specification

This file gives a shallow embedding, in Lean 4, of the numerical core of the
`probability` Rust crate (pseudorandom source, uniform-word conversion, and the
Gaussian, Binomial, Cauchy, Uniform, Categorical and Gamma distribution
algorithms), together with theorems settling the specification claims.

Embedding conventions:

* `f64` values are embedded as exact rationals (`ℚ`); decimal literals of the
  source are read as exact decimal fractions.  Transcendental primitives
  (`exp`, `ln`, `sqrt`, `tan`, `powf`) and the constant `PI` have no exact
  rational counterpart, so they are passed as an explicit oracle record
  (`Ops`); every theorem below is parametric in the oracle, mirroring the
  spec's treatment of the special-function library as an external collaborator.
* `u64` values are `ℕ` taken modulo `2 ^ 64` exactly where the machine
  operation wraps; `usize` casts of nonnegative floats are `Rat.floor`
  composed with `Int.toNat`, matching Rust's saturating truncation.
* `f64` results that can be IEEE special values are embedded in the sum type
  `F64` (`neginf`/`fin`/`posinf`/`nan`).  Where a claim turns on the exact
  IEEE 754 binary64 behaviour of the basic arithmetic (`+`, `-`, `*`), the
  operations `fAdd`/`fSub`/`fMul` below round every result with the exact
  round-to-nearest-ties-to-even function `roundQ`, including overflow to the
  infinities at magnitudes of `2 ^ 1024` and beyond.
* Source loops whose termination is numerical (Newton iteration, rejection
  sampling, series summation stopped by floating-point rounding) are embedded
  with an explicit fuel parameter and an `Option` result; `none` models
  non-termination within the given fuel.
-/

/-- An `f64` value that may be one of the two IEEE infinities or NaN. -/
inductive F64 where
  | neginf : F64
  | fin : ℚ → F64
  | posinf : F64
  | nan : F64
deriving DecidableEq, Repr

/-- `true` iff the value is finite (not an IEEE infinity or NaN). -/
def F64.isFin : F64 → Bool
  | .fin _ => true
  | _ => false

/-- Oracle record for the transcendental `f64` primitives used by the crate.
The fields stand for `f64::exp`, `f64::ln`, `f64::sqrt`, `f64::tan`,
`f64::powf` and the constant `std::f64::consts::PI`.  They are abstract
function parameters: the embedding is parametric in them. -/
structure Ops where
  exp : ℚ → ℚ
  log : ℚ → ℚ
  sqrt : ℚ → ℚ
  tan : ℚ → ℚ
  powf : ℚ → ℚ → ℚ
  pi : ℚ

/-- A trivial oracle instantiation, used only by witnesses. -/
def ops0 : Ops where
  exp := fun _ => 0
  log := fun _ => 0
  sqrt := fun _ => 0
  tan := fun _ => 0
  powf := fun _ _ => 0
  pi := 3

/-! ## Xorshift128+ source (`src/generator/xorshift.rs`) -/

/-- `2 ^ 64`, the modulus of `u64` arithmetic. -/
def M64 : ℕ := 2 ^ 64

/-- The Xorshift+ generator: two 64-bit state words
(`struct XorshiftPlus { state: [u64; 2] }`). -/
structure XorshiftPlus where
  state : ℕ × ℕ

/-- `XorshiftPlus::new(seed)`: store the seed as the state.  The constructor
performs no rejection or scrambling of the seed; the reduction mod `2 ^ 64`
only models the `u64` typing of the seed words. -/
def XorshiftPlus.new (seed : ℕ × ℕ) : XorshiftPlus :=
  ⟨(seed.1 % M64, seed.2 % M64)⟩

/-- `XorshiftPlus::read`: the three xor-shift mixing operations
(`x ^= x << 23`, `x ^= x >> 17`, `x ^= y ^ (y >> 26)`), the state update
`state = [y, x]`, and the wrapping sum `x.wrapping_add(y)` as result. -/
def XorshiftPlus.read (g : XorshiftPlus) : ℕ × XorshiftPlus :=
  let x := g.state.1
  let y := g.state.2
  let x1 := x ^^^ ((x <<< 23) % M64)
  let x2 := x1 ^^^ (x1 >>> 17)
  let x3 := x2 ^^^ y ^^^ (y >>> 26)
  ((x3 + y) % M64, ⟨(y, x3)⟩)

/-- The first `n` outputs of repeated `read()` calls. -/
def XorshiftPlus.reads : ℕ → XorshiftPlus → List ℕ
  | 0, _ => []
  | n + 1, g =>
    let r := g.read
    r.1 :: XorshiftPlus.reads n r.2

/-- The claim-side description of one read: apply the three xor-shift mixing
operations to the first state word and return the sum, modulo `2 ^ 64`, of the
pre-shift word (the untouched second state word) and the post-shift word. -/
def xorshiftMixSpec (x y : ℕ) : ℕ :=
  let a := x ^^^ ((x <<< 23) % M64)
  let b := a ^^^ (a >>> 17)
  b ^^^ y ^^^ (y >>> 26)

/-- C7: two `XorshiftPlus` generators constructed from the same seed array
produce identical sequences of the first `n` outputs, and each read applies the
three xor-shift mixing operations and returns the sum, modulo `2 ^ 64`, of the
pre-shift word and the post-shift word, while the new state is the pair of the
old second word and the mixed word. -/
theorem xorshift_deterministic_and_read_formula
    (s t : ℕ × ℕ) (h : s = t) (n : ℕ) (g : XorshiftPlus) :
    XorshiftPlus.reads n (XorshiftPlus.new s) = XorshiftPlus.reads n (XorshiftPlus.new t)
      ∧ g.read.1 = (xorshiftMixSpec g.state.1 g.state.2 + g.state.2) % M64
      ∧ g.read.2.state = (g.state.2, xorshiftMixSpec g.state.1 g.state.2) := by
  subst h
  exact ⟨rfl, rfl, rfl⟩

/-- Witness for C7 at the seed `[42, 69]` used by the crate's default
generator. -/
theorem xorshift_deterministic_witness :
    XorshiftPlus.reads 3 (XorshiftPlus.new (42, 69))
        = XorshiftPlus.reads 3 (XorshiftPlus.new (42, 69))
      ∧ (XorshiftPlus.new (42, 69)).read.1
          = (xorshiftMixSpec 42 69 + 69) % M64
      ∧ (XorshiftPlus.new (42, 69)).read.2.state
          = (69, xorshiftMixSpec 42 69) := by
  have h := xorshift_deterministic_and_read_formula (42, 69) (42, 69) rfl 3
    (XorshiftPlus.new (42, 69))
  exact ⟨h.1, h.2.1, h.2.2⟩

/-- C9: the all-zero state is a fixed point of the read step: the constructor
accepts the seed `[0, 0]` unchanged, every `read()` returns `0` and leaves the
state at `[0, 0]`, and the first `n` outputs are the constant-zero sequence,
for every `n`. -/
theorem xorshift_zero_seed_constant_zero (n : ℕ) :
    (XorshiftPlus.new (0, 0)).state = (0, 0)
      ∧ (XorshiftPlus.new (0, 0)).read = (0, XorshiftPlus.new (0, 0))
      ∧ XorshiftPlus.reads n (XorshiftPlus.new (0, 0)) = List.replicate n 0 := by
  refine ⟨rfl, rfl, ?_⟩
  induction n with
  | zero => rfl
  | succ m ih =>
    show 0 :: XorshiftPlus.reads m (XorshiftPlus.new (0, 0)) = List.replicate (m + 1) 0
    rw [List.replicate_succ, ih]

/-! ## Uniform-word-to-double conversion (`src/generator/mod.rs`)

`impl Quantity for f64 { fn make(chunk: u64) -> f64 { chunk as f64 /
(::std::u64::MAX as f64 + 1.0) } }`.

The cast `chunk as f64` is not exact: IEEE 754 binary64 rounds the integer to
the nearest representable value (round-to-nearest, ties-to-even), which for
integers of more than 53 significant bits changes the value.  The embedding
below implements that rounding exactly on `ℕ`. -/

/-- Bit length of a natural number via fuel-bounded halving (the fuel 128
covers every value arising here). -/
def bitLenAux : ℕ → ℕ → ℕ
  | 0, _ => 0
  | f + 1, n => if n = 0 then 0 else bitLenAux f (n / 2) + 1

/-- Number of binary digits of `n` (0 for 0). -/
def bitLen (n : ℕ) : ℕ := bitLenAux 128 n

/-- IEEE 754 binary64 rounding (round-to-nearest, ties-to-even) of a natural
number: exact below 54 bits, otherwise rounded to a multiple of the unit in
the last place of its binade. -/
def roundF64nat (w : ℕ) : ℕ :=
  let b := bitLen w
  if b ≤ 53 then w
  else
    let ulp := 2 ^ (b - 53)
    let q := w / ulp
    let r := w % ulp
    let half := ulp / 2
    if r < half then q * ulp
    else if half < r then (q + 1) * ulp
    else if q % 2 = 0 then q * ulp
    else (q + 1) * ulp

/-- `Quantity::make` for `f64`: round the word to a double, and divide by
`u64::MAX as f64 + 1.0`.  Both the cast of `u64::MAX` and the subsequent
addition of `1.0` round, and the final division by the resulting power of two
is exact in binary64, so it is exact rational division here. -/
def quantityMakeF64 (w : ℕ) : ℚ :=
  (roundF64nat w : ℚ) / (roundF64nat (roundF64nat (2 ^ 64 - 1) + 1) : ℚ)

/-- C6 (failing input): at the word `w = 2 ^ 64 - 1` the conversion returns
exactly `1.0`, not a value below `1`: the cast `w as f64` rounds up to
`2 ^ 64`, the denominator is also `2 ^ 64`, and the quotient is exactly `1`,
whereas the exact value `w / 2 ^ 64` is below `1`. -/
theorem quantity_f64_make_is_one_at_max_word :
    quantityMakeF64 (2 ^ 64 - 1) = 1
      ∧ ¬ quantityMakeF64 (2 ^ 64 - 1) < 1
      ∧ ((2 ^ 64 - 1 : ℕ) : ℚ) / (2 ^ 64 : ℚ) < 1 := by
  have h1 : roundF64nat (2 ^ 64 - 1) = 2 ^ 64 := by decide
  have h2 : roundF64nat (2 ^ 64 + 1) = 2 ^ 64 := by decide
  have hm : quantityMakeF64 (2 ^ 64 - 1) = 1 := by
    unfold quantityMakeF64
    rw [h1, h2]
    norm_num
  refine ⟨hm, by rw [hm]; exact lt_irrefl 1, by norm_num⟩

/-! ## Exact IEEE 754 binary64 arithmetic on `ℚ`

The claims about `Uniform::inverse` and `Cauchy::inverse` turn on the exact
rounding behaviour of the source's `f64` additions and multiplications, so the
embedding of those two functions rounds every intermediate result with the
IEEE 754 binary64 round-to-nearest-ties-to-even function, implemented here
exactly on `ℚ`, and carries the IEEE special values through `F64`. -/

/-- Bit length with 64-bit strides, fuel-bounded (fuel 40 covers all numbers
below `2 ^ 2560`, far above everything arising here). -/
def bitLenW : ℕ → ℕ → ℕ
  | 0, _ => 0
  | f + 1, n => if n < 2 ^ 64 then bitLen n else bitLenW f (n / 2 ^ 64) + 64

/-- Number of binary digits of `n` (0 for 0), for large `n`. -/
def natBits (n : ℕ) : ℕ := bitLenW 40 n

/-- The binary exponent of a positive rational: the unique `e` with
`2 ^ e ≤ x < 2 ^ (e + 1)`, computed from the bit lengths of numerator and
denominator with a final comparison fixing the off-by-one. -/
def ratExp2 (x : ℚ) : ℤ :=
  let e0 : ℤ := (natBits x.num.natAbs : ℤ) - (natBits x.den : ℤ)
  if x < (2 : ℚ) ^ e0 then e0 - 1 else e0

/-- IEEE 754 binary64 round-to-nearest-ties-to-even of a positive rational to
a multiple of the unit in the last place of its binade (with the subnormal
clamp of the scale at `2 ^ (-1074)`), before the overflow check. -/
def roundQpos (x : ℚ) : ℚ :=
  let sh : ℤ := max (ratExp2 x - 52) (-1074)
  let n0 := ⌊x / (2 : ℚ) ^ sh⌋
  let frac := x / (2 : ℚ) ^ sh - (n0 : ℚ)
  let n1 : ℤ :=
    if frac < 1/2 then n0
    else if 1/2 < frac then n0 + 1
    else if n0 % 2 = 0 then n0 else n0 + 1
  (n1 : ℚ) * (2 : ℚ) ^ sh

/-- IEEE 754 binary64 rounding of an exact rational: round the magnitude to
nearest-ties-to-even, overflowing to the signed infinity when the rounded
magnitude reaches `2 ^ 1024`. -/
def roundQ (x : ℚ) : F64 :=
  if x = 0 then F64.fin 0
  else if 0 < x then
    if (2 : ℚ) ^ (1024 : ℤ) ≤ roundQpos x then F64.posinf
    else F64.fin (roundQpos x)
  else
    if (2 : ℚ) ^ (1024 : ℤ) ≤ roundQpos (-x) then F64.neginf
    else F64.fin (-roundQpos (-x))

/-- IEEE negation (exact; swaps the infinities). -/
def fNeg : F64 → F64
  | .neginf => .posinf
  | .posinf => .neginf
  | .fin q => .fin (-q)
  | .nan => .nan

/-- IEEE binary64 addition: NaN propagates, `∞ + (-∞)` is NaN, an infinity
absorbs any finite addend, and the finite case rounds the exact sum. -/
def fAdd : F64 → F64 → F64
  | .nan, _ => .nan
  | _, .nan => .nan
  | .neginf, .posinf => .nan
  | .posinf, .neginf => .nan
  | .neginf, _ => .neginf
  | _, .neginf => .neginf
  | .posinf, _ => .posinf
  | _, .posinf => .posinf
  | .fin a, .fin b => roundQ (a + b)

/-- IEEE binary64 multiplication: NaN propagates, `0 * ∞` is NaN, a nonzero
finite factor gives a signed infinity, and the finite case rounds the exact
product. -/
def fMul : F64 → F64 → F64
  | .nan, _ => .nan
  | _, .nan => .nan
  | .fin a, .fin b => roundQ (a * b)
  | .fin a, .posinf => if a = 0 then .nan else if 0 < a then .posinf else .neginf
  | .fin a, .neginf => if a = 0 then .nan else if 0 < a then .neginf else .posinf
  | .posinf, .fin b => if b = 0 then .nan else if 0 < b then .posinf else .neginf
  | .neginf, .fin b => if b = 0 then .nan else if 0 < b then .neginf else .posinf
  | .posinf, .posinf => .posinf
  | .posinf, .neginf => .neginf
  | .neginf, .posinf => .neginf
  | .neginf, .neginf => .posinf

/-- IEEE binary64 subtraction, as addition of the negation (exact in IEEE). -/
def fSub (a b : F64) : F64 := fAdd a (fNeg b)

/-! ## Gaussian quantile (`src/distributions/gaussian.rs`, also
`src/dist/gaussian.rs`)

The AS241 rational approximation of the inverse of the standard normal CDF
(Wichura), scaled by `sigma` and shifted by `mu`. -/

/-- The degree-7 Horner evaluation used by `inv_cdf`
(`c[0] + x*(c[1] + x*(c[2] + ... x*(c[7]))))`). -/
def poly8 (c : List ℚ) (x : ℚ) : ℚ :=
  c.getD 0 0 + x * (c.getD 1 0 + x * (c.getD 2 0 + x * (c.getD 3 0 +
    x * (c.getD 4 0 + x * (c.getD 5 0 + x * (c.getD 6 0 + x * c.getD 7 0))))))

/-- Coefficient table `A` of `inv_cdf`. -/
def gaussianA : List ℚ :=
  [3.3871328727963666080, 1.3314166789178437745e2, 1.9715909503065514427e3,
   1.3731693765509461125e4, 4.5921953931549871457e4, 6.7265770927008700853e4,
   3.3430575583588128105e4, 2.5090809287301226727e3]

/-- Coefficient table `B` of `inv_cdf`. -/
def gaussianB : List ℚ :=
  [1.0, 4.2313330701600911252e1, 6.8718700749205790830e2,
   5.3941960214247511077e3, 2.1213794301586595867e4, 3.9307895800092710610e4,
   2.8729085735721942674e4, 5.2264952788528545610e3]

/-- Coefficient table `C` of `inv_cdf`. -/
def gaussianC : List ℚ :=
  [1.42343711074968357734, 4.63033784615654529590, 5.76949722146069140550,
   3.64784832476320460504, 1.27045825245236838258, 2.41780725177450611770e-1,
   2.27238449892691845833e-2, 7.74545014278341407640e-4]

/-- Coefficient table `D` of `inv_cdf`. -/
def gaussianD : List ℚ :=
  [1.0, 2.05319162663775882187, 1.67638483018380384940,
   6.89767334985100004550e-1, 1.48103976427480074590e-1,
   1.51986665636164571966e-2, 5.47593808499534494600e-4,
   1.05075007164441684324e-9]

/-- Coefficient table `E` of `inv_cdf`. -/
def gaussianE : List ℚ :=
  [6.65790464350110377720, 5.46378491116411436990, 1.78482653991729133580,
   2.96560571828504891230e-1, 2.65321895265761230930e-2,
   1.24266094738807843860e-3, 2.71155556874348757815e-5,
   2.01033439929228813265e-7]

/-- Coefficient table `F` of `inv_cdf`. -/
def gaussianF : List ℚ :=
  [1.0, 5.99832206555887937690e-1, 1.36929880922735805310e-1,
   1.48753612908506148525e-2, 7.86869131145613259100e-4,
   1.84631831751005468180e-5, 1.42151175831644588870e-7,
   2.04426310338993978564e-15]

/-- A Gaussian distribution (`pub mu: f64, pub sigma: f64`; the embedded
struct omits the `normal` helper used only by `sample`). -/
structure Gaussian where
  mu : ℚ
  sigma : ℚ

/-- `Gaussian::new(mu, sigma)`. -/
def Gaussian.new (mu sigma : ℚ) : Gaussian := ⟨mu, sigma⟩

/-- `Gaussian::inv_cdf`, embedded from the source: boundary branches return
the IEEE infinities; the central branch evaluates the rational function
`A/B` at `0.180625 - q*q`; the tails evaluate `C/D` at `sqrt(-ln x) - 1.6`
or `E/F` at `sqrt(-ln x) - 5.0` and negate for the lower tail. -/
def Gaussian.inv_cdf (ops : Ops) (g : Gaussian) (p : ℚ) : F64 :=
  if p ≤ 0 then F64.neginf
  else if 1 ≤ p then F64.posinf
  else
    let q := p - 0.5
    if (if q < 0 then -q else q) ≤ 0.425 then
      let x := 0.180625 - q * q
      F64.fin (g.mu + g.sigma * q * poly8 gaussianA x / poly8 gaussianB x)
    else
      let x0 := if q < 0 then p else 1 - p
      let x1 := ops.sqrt (-ops.log x0)
      let x2 :=
        if x1 ≤ 5 then poly8 gaussianC (x1 - 1.6) / poly8 gaussianD (x1 - 1.6)
        else poly8 gaussianE (x1 - 5.0) / poly8 gaussianF (x1 - 5.0)
      F64.fin (g.mu + g.sigma * (if q < 0 then -x2 else x2))

/-- The four-branch scheme as the specification words it: with
`q = p - 0.5`, either `mu + sigma * (q * A(x)/B(x))` at `x = 0.180625 - q^2`
when `|q| ≤ 0.425`, or, with `r = sqrt(-ln(min(p, 1-p)))`, the `C/D`
rational at `r - 1.6` when `r ≤ 5.0` and the `E/F` rational at `r - 5.0`
otherwise, negated exactly when `q < 0`, then scaled and shifted. -/
def gaussianQuantileSpec (ops : Ops) (mu sigma p : ℚ) : ℚ :=
  let q := p - 0.5
  if |q| ≤ 0.425 then
    let x := 0.180625 - q ^ 2
    mu + sigma * (q * poly8 gaussianA x / poly8 gaussianB x)
  else
    let r := ops.sqrt (-ops.log (min p (1 - p)))
    let t :=
      if r ≤ 5 then poly8 gaussianC (r - 1.6) / poly8 gaussianD (r - 1.6)
      else poly8 gaussianE (r - 5.0) / poly8 gaussianF (r - 5.0)
    mu + sigma * (if q < 0 then -t else t)

/-- C3: for `0 < p < 1` the Gaussian `inv_cdf` computes exactly the
four-branch rational scheme described by the specification, for every
oracle interpretation of `sqrt` and `ln`. -/
theorem gaussian_inv_cdf_four_branch (ops : Ops) (g : Gaussian) (p : ℚ)
    (h0 : 0 < p) (h1 : p < 1) :
    Gaussian.inv_cdf ops g p = F64.fin (gaussianQuantileSpec ops g.mu g.sigma p) := by
  have e1 : (if p - 0.5 < 0 then -(p - 0.5) else p - 0.5) = |p - 0.5| := by
    rcases lt_or_le (p - 0.5) 0 with h | h
    · rw [if_pos h, abs_of_neg h]
    · rw [if_neg (not_lt.mpr h), abs_of_nonneg h]
  have e2 : (if p - 0.5 < 0 then p else 1 - p) = min p (1 - p) := by
    rcases lt_or_le (p - 0.5) 0 with h | h
    · rw [if_pos h, min_eq_left (by linarith)]
    · rw [if_neg (not_lt.mpr h), min_eq_right (by linarith)]
  have e3 : 0.180625 - (p - 0.5) * (p - 0.5) = 0.180625 - (p - 0.5) ^ 2 := by
    ring
  simp only [Gaussian.inv_cdf, gaussianQuantileSpec]
  rw [if_neg (not_le.mpr h0), if_neg (not_le.mpr h1), e1, e2, e3]
  split_ifs with hc
  · exact congrArg F64.fin (by ring)
  all_goals rfl

/-- Witness for C3 at `p = 1/4`, `mu = 0`, `sigma = 1`. -/
theorem gaussian_inv_cdf_four_branch_witness :
    Gaussian.inv_cdf ops0 (Gaussian.new 0 1) (1/4)
      = F64.fin (gaussianQuantileSpec ops0 (Gaussian.new 0 1).mu
          (Gaussian.new 0 1).sigma (1/4)) :=
  gaussian_inv_cdf_four_branch ops0 (Gaussian.new 0 1) (1/4)
    (by norm_num) (by norm_num)

/-- C4: `inv_cdf` returns the IEEE negative infinity for every `p ≤ 0` and
the IEEE positive infinity for every `p ≥ 1` (values of the `F64.neginf` /
`F64.posinf` constructors, not finite sentinels). -/
theorem gaussian_inv_cdf_boundary_infinities (ops : Ops) (g : Gaussian)
    (p q : ℚ) (hp : p ≤ 0) (hq : 1 ≤ q) :
    Gaussian.inv_cdf ops g p = F64.neginf
      ∧ Gaussian.inv_cdf ops g q = F64.posinf := by
  constructor
  · simp only [Gaussian.inv_cdf]
    rw [if_pos hp]
  · simp only [Gaussian.inv_cdf]
    rw [if_neg (by linarith : ¬ q ≤ 0), if_pos hq]

/-- Witness for C4 at `p = 0` and `p = 1`. -/
theorem gaussian_inv_cdf_boundary_infinities_witness :
    Gaussian.inv_cdf ops0 (Gaussian.new 0 1) 0 = F64.neginf
      ∧ Gaussian.inv_cdf ops0 (Gaussian.new 0 1) 1 = F64.posinf :=
  gaussian_inv_cdf_boundary_infinities ops0 (Gaussian.new 0 1) 0 1
    (le_refl 0) (le_refl 1)

/-! ## Cauchy and Uniform quantiles (`src/distribution/cauchy.rs`,
`src/distribution/uniform.rs`) -/

/-- A Cauchy distribution. -/
structure CauchyDist where
  loc : ℚ
  gamma : ℚ

/-- `Cauchy::new(loc, gamma)`. -/
def CauchyDist.new (loc gamma : ℚ) : CauchyDist := ⟨loc, gamma⟩

/-- `Cauchy::inverse`: `loc + gamma * (PI * (p - 0.5)).tan()`.  The IEEE
`tan` is finite at every finite argument (no odd multiple of π/2 is
representable), so the oracle returns a rational; its argument
`PI * (p - 0.5)` is passed exactly because the oracle's value already stands
for `tan` of the rounded product.  The outer multiplication by `gamma` and
addition of `loc` are IEEE binary64 operations (`fMul`, `fAdd`): they round
and can overflow to the infinities for extreme `gamma` or `loc`. -/
def CauchyDist.inverse (ops : Ops) (d : CauchyDist) (p : ℚ) : F64 :=
  fAdd (F64.fin d.loc)
    (fMul (F64.fin d.gamma) (F64.fin (ops.tan (ops.pi * (p - 0.5)))))

/-- A continuous uniform distribution on `[a, b]`. -/
structure Uniform where
  a : ℚ
  b : ℚ

/-- `Uniform::new(a, b)` (requires `a < b`). -/
def Uniform.new (a b : ℚ) : Uniform := ⟨a, b⟩

/-- `Uniform::inverse`: `a + (b - a) * p`, with the subtraction,
multiplication and addition as IEEE binary64 operations (`fSub`, `fMul`,
`fAdd`): each rounds to nearest-ties-to-even, so e.g. `b - a` is not exact
when the exact difference needs more than 53 bits. -/
def Uniform.inverse (d : Uniform) (p : ℚ) : F64 :=
  fAdd (F64.fin d.a) (fMul (fSub (F64.fin d.b) (F64.fin d.a)) (F64.fin p))

/-- Oracle whose `tan` is the constant value taken by the IEEE `tan` at the
double nearest to -π/2 (the finite double -16331239353195370.0), and whose
`pi` is the double nearest to π. -/
def opsTanF64 : Ops where
  exp := fun _ => 0
  log := fun _ => 0
  sqrt := fun _ => 0
  tan := fun _ => -16331239353195370
  powf := fun _ _ => 0
  pi := 884279719003555 / 281474976710656

/-- `roundQ` is exact at 0. -/
theorem roundQ_zero : roundQ 0 = F64.fin 0 := by
  rw [roundQ, if_pos rfl]

theorem ratExp2_one : ratExp2 1 = 0 := by
  rw [ratExp2]
  have h1 : ((1 : ℚ)).num.natAbs = 1 := by norm_num
  have h2 : ((1 : ℚ)).den = 1 := by norm_num
  rw [h1, h2, show natBits 1 = 1 from by decide]
  norm_num

theorem roundQpos_one : roundQpos 1 = 1 := by
  rw [roundQpos, ratExp2_one]
  norm_num [max_def]

/-- `roundQ` is exact at 1. -/
theorem roundQ_one : roundQ 1 = F64.fin 1 := by
  rw [roundQ, if_neg (by norm_num : ¬ (1 : ℚ) = 0),
    if_pos (by norm_num : (0 : ℚ) < 1), roundQpos_one]
  rw [if_neg (by norm_num : ¬ (2 : ℚ) ^ (1024 : ℤ) ≤ 1)]

theorem ratExp2_tanmag : ratExp2 (16331239353195370 : ℚ) = 53 := by
  rw [ratExp2]
  have h1 : ((16331239353195370 : ℚ)).num.natAbs = 16331239353195370 := by norm_num
  have h2 : ((16331239353195370 : ℚ)).den = 1 := by norm_num
  rw [h1, h2, show natBits 16331239353195370 = 54 from by decide,
    show natBits 1 = 1 from by decide]
  norm_num

theorem roundQpos_tanmag : roundQpos (16331239353195370 : ℚ) = 16331239353195370 := by
  rw [roundQpos, ratExp2_tanmag]
  norm_num [max_def]

/-- `roundQ` is exact at the 54-bit even integer `-16331239353195370`
(the IEEE value of `tan` at the double nearest `-π/2`). -/
theorem roundQ_negTan : roundQ (-16331239353195370) = F64.fin (-16331239353195370) := by
  rw [roundQ, if_neg (by norm_num : ¬ (-16331239353195370 : ℚ) = 0),
    if_neg (by norm_num : ¬ (0 : ℚ) < -16331239353195370)]
  rw [show -(-16331239353195370 : ℚ) = 16331239353195370 from by norm_num,
    roundQpos_tanmag]
  rw [if_neg (by norm_num : ¬ (2 : ℚ) ^ (1024 : ℤ) ≤ 16331239353195370)]

theorem ratExp2_c16p1 : ratExp2 (10000000000000001 : ℚ) = 53 := by
  rw [ratExp2]
  have h1 : ((10000000000000001 : ℚ)).num.natAbs = 10000000000000001 := by norm_num
  have h2 : ((10000000000000001 : ℚ)).den = 1 := by norm_num
  rw [h1, h2, show natBits 10000000000000001 = 54 from by decide,
    show natBits 1 = 1 from by decide]
  norm_num

theorem roundQpos_c16p1 : roundQpos (10000000000000001 : ℚ) = 10000000000000000 := by
  rw [roundQpos, ratExp2_c16p1]
  norm_num [max_def]

/-- `10 ^ 16 + 1` is an odd 54-bit integer exactly halfway between the
doubles `10 ^ 16` and `10 ^ 16 + 2`: ties-to-even rounds it *down* to
`10 ^ 16`. -/
theorem roundQ_c16p1 : roundQ (10000000000000001 : ℚ) = F64.fin 10000000000000000 := by
  rw [roundQ, if_neg (by norm_num : ¬ (10000000000000001 : ℚ) = 0),
    if_pos (by norm_num : (0 : ℚ) < 10000000000000001), roundQpos_c16p1]
  rw [if_neg (by norm_num : ¬ (2 : ℚ) ^ (1024 : ℤ) ≤ 10000000000000000)]

theorem ratExp2_c16 : ratExp2 (10000000000000000 : ℚ) = 53 := by
  rw [ratExp2]
  have h1 : ((10000000000000000 : ℚ)).num.natAbs = 10000000000000000 := by norm_num
  have h2 : ((10000000000000000 : ℚ)).den = 1 := by norm_num
  rw [h1, h2, show natBits 10000000000000000 = 54 from by decide,
    show natBits 1 = 1 from by decide]
  norm_num

theorem roundQpos_c16 : roundQpos (10000000000000000 : ℚ) = 10000000000000000 := by
  rw [roundQpos, ratExp2_c16]
  norm_num [max_def]

/-- `roundQ` is exact at the even 54-bit integer `10 ^ 16`. -/
theorem roundQ_c16 : roundQ (10000000000000000 : ℚ) = F64.fin 10000000000000000 := by
  rw [roundQ, if_neg (by norm_num : ¬ (10000000000000000 : ℚ) = 0),
    if_pos (by norm_num : (0 : ℚ) < 10000000000000000), roundQpos_c16]
  rw [if_neg (by norm_num : ¬ (2 : ℚ) ^ (1024 : ℤ) ≤ 10000000000000000)]

set_option exponentiation.threshold 3000 in
theorem ratExp2_ovf : ratExp2 (16331239353195370 * 2 ^ 1020 : ℚ) = 1073 := by
  rw [ratExp2]
  have h1 : ((16331239353195370 * 2 ^ 1020 : ℚ)).num.natAbs
      = 16331239353195370 * 2 ^ 1020 := by norm_num
  have h2 : ((16331239353195370 * 2 ^ 1020 : ℚ)).den = 1 := by norm_num
  rw [h1, h2, show natBits (16331239353195370 * 2 ^ 1020) = 1074 from by decide,
    show natBits 1 = 1 from by decide]
  norm_num

set_option exponentiation.threshold 3000 in
theorem roundQpos_ovf : roundQpos (16331239353195370 * 2 ^ 1020 : ℚ)
    = 16331239353195370 * 2 ^ 1020 := by
  rw [roundQpos, ratExp2_ovf]
  norm_num [max_def]

set_option exponentiation.threshold 3000 in
/-- A 1074-bit magnitude exceeds `2 ^ 1024`: `roundQ` overflows to `-∞`. -/
theorem roundQ_negOvf :
    roundQ (-(16331239353195370 * 2 ^ 1020) : ℚ) = F64.neginf := by
  rw [roundQ,
    if_neg (by norm_num : ¬ (-(16331239353195370 * 2 ^ 1020) : ℚ) = 0),
    if_neg (by norm_num : ¬ (0 : ℚ) < -(16331239353195370 * 2 ^ 1020))]
  rw [show (-(-(16331239353195370 * 2 ^ 1020)) : ℚ)
      = 16331239353195370 * 2 ^ 1020 from by ring, roundQpos_ovf]
  rw [if_pos (by norm_num : (2 : ℚ) ^ (1024 : ℤ) ≤ 16331239353195370 * 2 ^ 1020)]

/-- C5 (counterexample): `Cauchy(0, 1).inverse(0)` is the finite value
`tan` takes at the double nearest `-π/2`, not the claimed `-∞`; and
`Uniform(-10^16, 1).inverse(1)` is not `b = 1`: the difference
`b - a = 10^16 + 1` rounds down to `10^16` (ties-to-even), and the final
addition gives exactly `0`. -/
theorem cauchy_inverse_zero_finite_counterexample :
    CauchyDist.inverse opsTanF64 (CauchyDist.new 0 1) 0 ≠ F64.neginf
      ∧ CauchyDist.inverse opsTanF64 (CauchyDist.new 0 1) 0
          = F64.fin (-16331239353195370)
      ∧ Uniform.inverse (Uniform.new (-10000000000000000) 1) 1 ≠ F64.fin 1 := by
  have ht : opsTanF64.tan (opsTanF64.pi * ((0 : ℚ) - 0.5)) = -16331239353195370 := rfl
  have hc : CauchyDist.inverse opsTanF64 (CauchyDist.new 0 1) 0
      = F64.fin (-16331239353195370) := by
    unfold CauchyDist.inverse
    simp only [CauchyDist.new]
    rw [ht]
    show fAdd (F64.fin 0) (fMul (F64.fin 1) (F64.fin (-16331239353195370))) = _
    rw [show fMul (F64.fin 1) (F64.fin (-16331239353195370))
        = roundQ (1 * -16331239353195370) from rfl]
    rw [show ((1 : ℚ) * -16331239353195370) = -16331239353195370 from by norm_num,
      roundQ_negTan]
    rw [show fAdd (F64.fin 0) (F64.fin (-16331239353195370))
        = roundQ (0 + -16331239353195370) from rfl]
    rw [show ((0 : ℚ) + -16331239353195370) = -16331239353195370 from by norm_num,
      roundQ_negTan]
  have hu : Uniform.inverse (Uniform.new (-10000000000000000) 1) 1 = F64.fin 0 := by
    unfold Uniform.inverse
    simp only [Uniform.new]
    show fAdd (F64.fin (-10000000000000000))
      (fMul (fSub (F64.fin 1) (F64.fin (-10000000000000000))) (F64.fin 1)) = _
    rw [show fSub (F64.fin 1) (F64.fin (-10000000000000000))
        = roundQ (1 + -(-10000000000000000 : ℚ)) from rfl]
    rw [show ((1 : ℚ) + -(-10000000000000000 : ℚ)) = 10000000000000001 from by norm_num,
      roundQ_c16p1]
    rw [show fMul (F64.fin 10000000000000000) (F64.fin 1)
        = roundQ (10000000000000000 * 1) from rfl]
    rw [show ((10000000000000000 : ℚ) * 1) = 10000000000000000 from by norm_num,
      roundQ_c16]
    rw [show fAdd (F64.fin (-10000000000000000)) (F64.fin 10000000000000000)
        = roundQ (-10000000000000000 + 10000000000000000) from rfl]
    rw [show ((-10000000000000000 : ℚ) + 10000000000000000) = 0 from by norm_num,
      roundQ_zero]
  refine ⟨?_, hc, ?_⟩
  · rw [hc]
    intro h
    exact F64.noConfusion h
  · rw [hu]
    intro h
    have : (0 : ℚ) = 1 := F64.fin.inj h
    norm_num at this

set_option exponentiation.threshold 3000 in
/-- C5 (amended): under exact IEEE binary64 arithmetic, `Uniform::inverse`
satisfies `inverse(0) = a` exactly whenever `a` is representable and `b - a`
does not overflow; `inverse(1) = b` only up to rounding — it holds for
`Uniform(0, 1)` but fails for `Uniform(-10^16, 1)`, which returns `0`.
`Cauchy::inverse` is finite at `p = 0` and `p = 1` for moderate parameters
(the IEEE `tan` never yields an infinity), as the source's doc comment warns,
but the multiplication by an extreme `gamma` such as `2 ^ 1020` overflows to
the IEEE `-∞`. -/
theorem quantile_boundary_uniform_exact_cauchy_finite (a b : ℚ) (hab : a < b)
    (hfa : roundQ a = F64.fin a)
    (hfin : (fSub (F64.fin b) (F64.fin a)).isFin = true) :
    Uniform.inverse (Uniform.new a b) 0 = F64.fin a
      ∧ Uniform.inverse (Uniform.new 0 1) 1 = F64.fin 1
      ∧ Uniform.inverse (Uniform.new (-10000000000000000) 1) 1 = F64.fin 0
      ∧ (CauchyDist.inverse opsTanF64 (CauchyDist.new 0 1) 0).isFin = true
      ∧ (CauchyDist.inverse opsTanF64 (CauchyDist.new 0 1) 1).isFin = true
      ∧ CauchyDist.inverse opsTanF64 (CauchyDist.new 0 (2 ^ 1020)) 0 = F64.neginf := by
  refine ⟨?_, ?_, ?_, ?_, ?_, ?_⟩
  · unfold Uniform.inverse
    simp only [Uniform.new]
    cases hS : fSub (F64.fin b) (F64.fin a) with
    | fin m =>
      show fAdd (F64.fin a) (fMul (F64.fin m) (F64.fin 0)) = F64.fin a
      rw [show fMul (F64.fin m) (F64.fin 0) = roundQ (m * 0) from rfl,
        mul_zero, roundQ_zero]
      rw [show fAdd (F64.fin a) (F64.fin 0) = roundQ (a + 0) from rfl,
        add_zero, hfa]
    | neginf => rw [hS] at hfin; simp [F64.isFin] at hfin
    | posinf => rw [hS] at hfin; simp [F64.isFin] at hfin
    | nan => rw [hS] at hfin; simp [F64.isFin] at hfin
  · unfold Uniform.inverse
    simp only [Uniform.new]
    show fAdd (F64.fin 0) (fMul (fSub (F64.fin 1) (F64.fin 0)) (F64.fin 1)) = _
    rw [show fSub (F64.fin 1) (F64.fin 0) = roundQ (1 + -(0 : ℚ)) from rfl]
    rw [show ((1 : ℚ) + -(0 : ℚ)) = 1 from by norm_num, roundQ_one]
    rw [show fMul (F64.fin 1) (F64.fin 1) = roundQ (1 * 1) from rfl]
    rw [show ((1 : ℚ) * 1) = 1 from by norm_num, roundQ_one]
    rw [show fAdd (F64.fin 0) (F64.fin 1) = roundQ (0 + 1) from rfl]
    rw [show ((0 : ℚ) + 1) = 1 from by norm_num, roundQ_one]
  · unfold Uniform.inverse
    simp only [Uniform.new]
    show fAdd (F64.fin (-10000000000000000))
      (fMul (fSub (F64.fin 1) (F64.fin (-10000000000000000))) (F64.fin 1)) = _
    rw [show fSub (F64.fin 1) (F64.fin (-10000000000000000))
        = roundQ (1 + -(-10000000000000000 : ℚ)) from rfl]
    rw [show ((1 : ℚ) + -(-10000000000000000 : ℚ)) = 10000000000000001 from by norm_num,
      roundQ_c16p1]
    rw [show fMul (F64.fin 10000000000000000) (F64.fin 1)
        = roundQ (10000000000000000 * 1) from rfl]
    rw [show ((10000000000000000 : ℚ) * 1) = 10000000000000000 from by norm_num,
      roundQ_c16]
    rw [show fAdd (F64.fin (-10000000000000000)) (F64.fin 10000000000000000)
        = roundQ (-10000000000000000 + 10000000000000000) from rfl]
    rw [show ((-10000000000000000 : ℚ) + 10000000000000000) = 0 from by norm_num,
      roundQ_zero]
  · have ht : opsTanF64.tan (opsTanF64.pi * ((0 : ℚ) - 0.5)) = -16331239353195370 := rfl
    unfold CauchyDist.inverse
    simp only [CauchyDist.new]
    rw [ht]
    rw [show fMul (F64.fin (1 : ℚ)) (F64.fin (-16331239353195370))
        = roundQ (1 * -16331239353195370) from rfl]
    rw [show ((1 : ℚ) * -16331239353195370) = -16331239353195370 from by norm_num,
      roundQ_negTan]
    rw [show fAdd (F64.fin (0 : ℚ)) (F64.fin (-16331239353195370))
        = roundQ (0 + -16331239353195370) from rfl]
    rw [show ((0 : ℚ) + -16331239353195370) = -16331239353195370 from by norm_num,
      roundQ_negTan]
    rfl
  · have ht : opsTanF64.tan (opsTanF64.pi * ((1 : ℚ) - 0.5)) = -16331239353195370 := rfl
    unfold CauchyDist.inverse
    simp only [CauchyDist.new]
    rw [ht]
    rw [show fMul (F64.fin (1 : ℚ)) (F64.fin (-16331239353195370))
        = roundQ (1 * -16331239353195370) from rfl]
    rw [show ((1 : ℚ) * -16331239353195370) = -16331239353195370 from by norm_num,
      roundQ_negTan]
    rw [show fAdd (F64.fin (0 : ℚ)) (F64.fin (-16331239353195370))
        = roundQ (0 + -16331239353195370) from rfl]
    rw [show ((0 : ℚ) + -16331239353195370) = -16331239353195370 from by norm_num,
      roundQ_negTan]
    rfl
  · have ht : opsTanF64.tan (opsTanF64.pi * ((0 : ℚ) - 0.5)) = -16331239353195370 := rfl
    unfold CauchyDist.inverse
    simp only [CauchyDist.new]
    rw [ht]
    rw [show fMul (F64.fin ((2 : ℚ) ^ 1020)) (F64.fin (-16331239353195370))
        = roundQ ((2 : ℚ) ^ 1020 * -16331239353195370) from rfl]
    rw [show ((2 : ℚ) ^ 1020 * -16331239353195370)
        = -(16331239353195370 * 2 ^ 1020) from by ring, roundQ_negOvf]
    rfl

/-- Witness for the amended C5 on `Uniform(0, 1)`, `Uniform(-10^16, 1)`,
`Cauchy(0, 1)` and `Cauchy(0, 2^1020)`. -/
theorem quantile_boundary_uniform_exact_cauchy_finite_witness :
    Uniform.inverse (Uniform.new 0 1) 0 = F64.fin 0
      ∧ Uniform.inverse (Uniform.new 0 1) 1 = F64.fin 1
      ∧ Uniform.inverse (Uniform.new (-10000000000000000) 1) 1 = F64.fin 0
      ∧ (CauchyDist.inverse opsTanF64 (CauchyDist.new 0 1) 0).isFin = true
      ∧ (CauchyDist.inverse opsTanF64 (CauchyDist.new 0 1) 1).isFin = true
      ∧ CauchyDist.inverse opsTanF64 (CauchyDist.new 0 (2 ^ 1020)) 0 = F64.neginf :=
  quantile_boundary_uniform_exact_cauchy_finite 0 1 (by norm_num) roundQ_zero
    (by rw [show fSub (F64.fin 1) (F64.fin 0) = roundQ (1 + -(0 : ℚ)) from rfl,
          show ((1 : ℚ) + -(0 : ℚ)) = 1 from by norm_num, roundQ_one]
        rfl)

/-! ## Binomial distribution (`src/distribution/binomial.rs`) -/

/-- Rust `as usize` applied to a finite double: truncation toward zero,
saturating at `0` for negative values (for the nonnegative values arising
here this is the floor). -/
def f64toUsize (q : ℚ) : ℕ := (⌊q⌋).toNat

/-- `S0 = 1/12` of `stirlerr`. -/
def stirlerrS0 : ℚ := 1 / 12
/-- `S1 = 1/360` of `stirlerr`. -/
def stirlerrS1 : ℚ := 1 / 360
/-- `S2 = 1/1260` of `stirlerr`. -/
def stirlerrS2 : ℚ := 1 / 1260
/-- `S3 = 1/1680` of `stirlerr`. -/
def stirlerrS3 : ℚ := 1 / 1680
/-- `S4 = 1/1188` of `stirlerr`. -/
def stirlerrS4 : ℚ := 1 / 1188

/-- The 16-entry exact table `SFE` of `stirlerr` (Loader 2000, p. 7). -/
def stirlerrSFE : List ℚ :=
  [0,
   8.106146679532725822e-2, 4.134069595540929409e-2, 2.767792568499833915e-2,
   2.079067210376509311e-2, 1.664469118982119216e-2, 1.387612882307074800e-2,
   1.189670994589177010e-2, 1.041126526197209650e-2, 9.255462182712732918e-3,
   8.330563433362871256e-3, 7.757367548795184079e-3, 6.942840107209529866e-3,
   6.408994188004207068e-3, 5.951370112758847736e-3, 5.554733551962801371e-3]

/-- `stirlerr(n) = ln(n!) - ln(sqrt(2π n) (n/e)^n)`: exact table lookup for
`n < 16`, otherwise one of four truncations of the asymptotic series
(Loader 2000, eq. 4), chosen by magnitude. -/
def stirlerr (x : ℚ) : ℚ :=
  if x < 16 then stirlerrSFE.getD (f64toUsize x) 0
  else
    let nn := x * x
    if x > 500 then (stirlerrS0 - stirlerrS1 / nn) / x
    else if x > 80 then (stirlerrS0 - (stirlerrS1 - stirlerrS2 / nn) / nn) / x
    else if x > 35 then
      (stirlerrS0 - (stirlerrS1 - (stirlerrS2 - stirlerrS3 / nn) / nn) / nn) / x
    else
      (stirlerrS0 - (stirlerrS1 - (stirlerrS2 - (stirlerrS3 - stirlerrS4 / nn) / nn) / nn) / nn) / x

/-- The series loop of `ln_d0`.  The source stops when adding the next term
no longer changes the floating-point accumulator (`if s1 == s`); in exact
rational arithmetic that test almost never fires, so the loop carries fuel,
returning the current partial sum when the fuel runs out — the fuel models
the finitely many terms the double-precision loop actually sums. -/
def ln_d0_go (v : ℚ) : ℕ → ℚ → ℚ → ℕ → ℚ
  | 0, s, _, _ => s
  | f + 1, s, ej, j =>
    let ej1 := ej * (v * v)
    let s1 := s + ej1 / ((2 * j + 1 : ℕ) : ℚ)
    if s1 = s then s1 else ln_d0_go v f s1 ej1 (j + 1)

/-- `ln_d0(x, np) = x ln(x/np) + np - x`, computed by the convergent series
when `|x - np| < 0.1 (x + np)` (the arguments are relatively close) and by
the direct logarithmic formula otherwise. -/
def ln_d0 (ops : Ops) (fuel : ℕ) (x np : ℚ) : ℚ :=
  if |x - np| < 0.1 * (x + np) then
    ln_d0_go ((x - np) / (x + np)) fuel ((x - np) ^ 2 / (x + np))
      (2 * x * ((x - np) / (x + np))) 1
  else x * ops.log (x / np) + np - x

/-- The binomial distribution value: `n` trials, success probability `p`,
with the constants `q = 1 - p`, `np`, `nq`, `npq` cached by the constructor. -/
structure Binomial where
  n : ℕ
  p : ℚ
  q : ℚ
  np : ℚ
  nq : ℚ
  npq : ℚ

/-- `Binomial::new(n, p)`. -/
def Binomial.new (n : ℕ) (p : ℚ) : Binomial :=
  let q := 1 - p
  let np := (n : ℚ) * p
  let nq := (n : ℚ) * q
  { n := n, p := p, q := q, np := np, nq := nq, npq := np * q }

/-- `Binomial::mass` (Loader's saddle-point method): degenerate parameters
`p = 0`, `p = 1` and the endpoints `x = 0`, `x = n` are closed-form; an
interior `x` combines the Stirling corrections and the two deviance terms
in the exponent and scales by `sqrt(n / (2π x (n - x)))`. -/
def Binomial.mass (ops : Ops) (fuel : ℕ) (d : Binomial) (x : ℕ) : ℚ :=
  if d.p = 0 then (if x = 0 then 1 else 0)
  else if d.p = 1 then (if x = d.n then 1 else 0)
  else if x = 0 then ops.exp ((d.n : ℚ) * ops.log d.q)
  else if x = d.n then ops.exp ((d.n : ℚ) * ops.log d.p)
  else
    let n : ℚ := (d.n : ℚ)
    let xq : ℚ := (x : ℚ)
    let nmx : ℚ := n - xq
    let lnc := stirlerr n - stirlerr xq - stirlerr nmx
      - ln_d0 ops fuel xq d.np - ln_d0 ops fuel nmx d.nq
    ops.exp lnc * ops.sqrt (n / (2 * ops.pi * xq * nmx))

/-- C2: for `0 < p < 1` and interior `1 ≤ x ≤ n - 1`, `mass(x)` is exactly
`exp(stirlerr(n) - stirlerr(x) - stirlerr(n-x) - ln_d0(x, np) - ln_d0(n-x, nq))
· sqrt(n / (2π x (n-x)))`; `stirlerr` is the exact 16-entry table below 16;
`ln_d0` takes the convergent-series branch whenever its first argument is
within 10% of its second; and the degenerate cases are closed-form — the
endpoints give `q^n` and `p^n` (under the exp/ln law at the evaluated
points), and `p ∈ {0, 1}` gives the indicator masses. -/
theorem binomial_mass_saddle_point (ops : Ops) (fuel n x m : ℕ) (p y z c : ℚ)
    (hp0 : 0 < p) (hp1 : p < 1) (hx1 : 1 ≤ x) (hxn : x ≤ n - 1)
    (hy : y < 16) (hc : 0 ≤ c) (hz : |z - c| < c / 10)
    (hq : ops.exp ((n : ℚ) * ops.log (Binomial.new n p).q) = (Binomial.new n p).q ^ n)
    (hpp : ops.exp ((n : ℚ) * ops.log (Binomial.new n p).p) = (Binomial.new n p).p ^ n) :
    Binomial.mass ops fuel (Binomial.new n p) x
        = ops.exp (stirlerr (n : ℚ) - stirlerr (x : ℚ) - stirlerr ((n : ℚ) - (x : ℚ))
            - ln_d0 ops fuel (x : ℚ) (Binomial.new n p).np
            - ln_d0 ops fuel ((n : ℚ) - (x : ℚ)) (Binomial.new n p).nq)
          * ops.sqrt ((n : ℚ) / (2 * ops.pi * (x : ℚ) * ((n : ℚ) - (x : ℚ))))
      ∧ stirlerr y = stirlerrSFE.getD (f64toUsize y) 0
      ∧ ln_d0 ops fuel z c
          = ln_d0_go ((z - c) / (z + c)) fuel ((z - c) ^ 2 / (z + c))
              (2 * z * ((z - c) / (z + c))) 1
      ∧ Binomial.mass ops fuel (Binomial.new n p) 0 = (1 - p) ^ n
      ∧ Binomial.mass ops fuel (Binomial.new n p) n = p ^ n
      ∧ Binomial.mass ops fuel (Binomial.new n 0) m = (if m = 0 then 1 else 0)
      ∧ Binomial.mass ops fuel (Binomial.new n 1) m = (if m = n then 1 else 0) := by
  have hn2 : 2 ≤ n := by omega
  have hx0 : x ≠ 0 := by omega
  have hxne : x ≠ n := by omega
  have hpne0 : p ≠ 0 := ne_of_gt hp0
  have hpne1 : p ≠ 1 := ne_of_lt hp1
  refine ⟨?_, ?_, ?_, ?_, ?_, ?_, ?_⟩
  · simp only [Binomial.mass, Binomial.new]
    rw [if_neg hpne0, if_neg hpne1, if_neg hx0, if_neg hxne]
  · rw [stirlerr, if_pos hy]
  · rw [ln_d0, if_pos]
    rcases abs_lt.mp hz with ⟨hlo, hhi⟩
    rw [abs_lt]
    constructor
    · nlinarith
    · nlinarith
  · simp only [Binomial.mass, Binomial.new] at hq ⊢
    rw [if_neg hpne0, if_neg hpne1]
    rw [if_pos trivial]
    exact hq
  · simp only [Binomial.mass, Binomial.new] at hpp ⊢
    rw [if_neg hpne0, if_neg hpne1, if_neg (by omega : n ≠ 0)]
    rw [if_pos trivial]
    exact hpp
  · simp [Binomial.mass, Binomial.new]
  · simp [Binomial.mass, Binomial.new]

/-- Oracle used by the C2 witness: `exp` is constantly `1/8` and `log`
constantly `0`, so that `exp(3 · log(1/2)) = (1/2)^3` holds exactly. -/
def opsExpW : Ops where
  exp := fun _ => 1 / 8
  log := fun _ => 0
  sqrt := fun _ => 0
  tan := fun _ => 0
  powf := fun _ _ => 0
  pi := 3

/-- Witness for C2 at `n = 3`, `p = 1/2`, `x = 1`. -/
theorem binomial_mass_saddle_point_witness :
    Binomial.mass opsExpW 5 (Binomial.new 3 (1/2)) 1
        = opsExpW.exp (stirlerr ((3 : ℕ) : ℚ) - stirlerr ((1 : ℕ) : ℚ)
            - stirlerr (((3 : ℕ) : ℚ) - ((1 : ℕ) : ℚ))
            - ln_d0 opsExpW 5 ((1 : ℕ) : ℚ) (Binomial.new 3 (1/2)).np
            - ln_d0 opsExpW 5 (((3 : ℕ) : ℚ) - ((1 : ℕ) : ℚ)) (Binomial.new 3 (1/2)).nq)
          * opsExpW.sqrt (((3 : ℕ) : ℚ) / (2 * opsExpW.pi * ((1 : ℕ) : ℚ)
              * (((3 : ℕ) : ℚ) - ((1 : ℕ) : ℚ))))
      ∧ stirlerr (3/2) = stirlerrSFE.getD (f64toUsize (3/2)) 0
      ∧ ln_d0 opsExpW 5 10 10
          = ln_d0_go ((10 - 10) / (10 + 10)) 5 ((10 - 10) ^ 2 / (10 + 10))
              (2 * 10 * ((10 - 10) / (10 + 10))) 1
      ∧ Binomial.mass opsExpW 5 (Binomial.new 3 (1/2)) 0 = (1 - 1/2) ^ 3
      ∧ Binomial.mass opsExpW 5 (Binomial.new 3 (1/2)) 3 = (1/2) ^ 3
      ∧ Binomial.mass opsExpW 5 (Binomial.new 3 0) 0 = (if 0 = 0 then 1 else 0)
      ∧ Binomial.mass opsExpW 5 (Binomial.new 3 1) 0 = (if 0 = 3 then 1 else 0) :=
  binomial_mass_saddle_point opsExpW 5 3 1 0 (1/2) (3/2) 10 10
    (by norm_num) (by norm_num) (by norm_num) (by norm_num)
    (by norm_num) (by norm_num) (by norm_num)
    (by norm_num [opsExpW, Binomial.new]) (by norm_num [opsExpW, Binomial.new])

/-! ## Categorical distribution (`src/distribution/categorical.rs`) -/

/-- A categorical distribution: number of categories, probabilities, and the
cumulative sums cached by the constructor. -/
structure Categorical where
  k : ℕ
  p : List ℚ
  cumsum : List ℚ

/-- One iteration of the constructor's accumulation loop
(`cumsum[i] += cumsum[i - 1]`). -/
def cumsumStep (c : List ℚ) (i : ℕ) : List ℚ :=
  c.set i (c.getD i 0 + c.getD (i - 1) 0)

/-- `Categorical::new(p)`: copy `p` into `cumsum`, run
`for i in 1..(k - 1) { cumsum[i] += cumsum[i - 1] }`, then force
`cumsum[k - 1] = 1.0`. -/
def Categorical.new (p : List ℚ) : Categorical :=
  let k := p.length
  let c := (List.range' 1 (k - 2)).foldl cumsumStep p
  { k := k, p := p, cumsum := c.set (k - 1) 1 }

/-- `Categorical::inv_cdf(p)`: index of the first cumulative sum that is
positive and at least `p`; if the search fails, the `unwrap_or_else` fallback
returns the last index with positive probability, and panics (`none`) when
there is none. -/
def Categorical.inv_cdf (d : Categorical) (p : ℚ) : Option ℕ :=
  match d.cumsum.findIdx? (fun s => decide (0 < s) && decide (p ≤ s)) with
  | some i => some i
  | none =>
    match d.p.reverse.findIdx? (fun q => decide (0 < q)) with
    | some j => some (d.p.length - 1 - j)
    | none => none

/-- Sum of the first `i + 1` entries of a list. -/
def prefixSumQ (ps : List ℚ) (i : ℕ) : ℚ := (ps.take (i + 1)).sum

theorem prefixSumQ_zero (ps : List ℚ) : prefixSumQ ps 0 = ps.getD 0 0 := by
  cases ps <;> simp [prefixSumQ]

theorem prefixSumQ_succ (ps : List ℚ) (i : ℕ) :
    prefixSumQ ps (i + 1) = prefixSumQ ps i + ps.getD (i + 1) 0 := by
  unfold prefixSumQ
  rw [List.take_succ, List.sum_append, List.getD_eq_getElem?_getD]
  cases h : ps[i + 1]? <;> simp [h]

theorem prefixSumQ_nonneg (ps : List ℚ) (h : ∀ q ∈ ps, 0 ≤ q) (i : ℕ) :
    0 ≤ prefixSumQ ps i := by
  apply List.sum_nonneg
  intro q hq
  exact h q (List.mem_of_mem_take hq)

theorem getD_le_prefixSumQ (ps : List ℚ) (h : ∀ q ∈ ps, 0 ≤ q) (i : ℕ) :
    ps.getD i 0 ≤ prefixSumQ ps i := by
  unfold prefixSumQ
  rw [List.take_succ, List.sum_append, List.getD_eq_getElem?_getD]
  have hnn : 0 ≤ (ps.take i).sum :=
    List.sum_nonneg (fun q hq => h q (List.mem_of_mem_take hq))
  cases hh : ps[i]? with
  | none => simpa using hnn
  | some a =>
    simp only [Option.getD_some, Option.toList_some, List.sum_cons, List.sum_nil]
    linarith

theorem foldl_cumsumStep_spec (ps : List ℚ) (m : ℕ) :
    ((List.range' 1 m).foldl cumsumStep ps).length = ps.length
      ∧ (∀ i, i ≤ m → i < ps.length →
          ((List.range' 1 m).foldl cumsumStep ps).getD i 0 = prefixSumQ ps i)
      ∧ (∀ i, m < i →
          ((List.range' 1 m).foldl cumsumStep ps).getD i 0 = ps.getD i 0) := by
  induction m with
  | zero =>
    refine ⟨rfl, ?_, fun i _ => rfl⟩
    intro i hi _
    have hi0 : i = 0 := by omega
    subst hi0
    exact (prefixSumQ_zero ps).symm
  | succ m ih =>
    obtain ⟨ihl, ih1, ih2⟩ := ih
    have hconc0 : List.range' 1 (m + 1) = List.range' 1 m ++ [1 + 1 * m] :=
      List.range'_concat 1 m
    have hconc : List.range' 1 (m + 1) = List.range' 1 m ++ [1 + m] := by
      simpa using hconc0
    rw [hconc, List.foldl_append]
    set res := (List.range' 1 m).foldl cumsumStep ps with hres
    simp only [List.foldl_cons, List.foldl_nil]
    unfold cumsumStep
    refine ⟨by rw [List.length_set, ihl], ?_, ?_⟩
    · intro i hi hilen
      rcases Nat.lt_or_ge i (1 + m) with hlt | hge
      · rw [List.getD_eq_getElem?_getD, List.getElem?_set_ne (by omega),
          ← List.getD_eq_getElem?_getD]
        exact ih1 i (by omega) hilen
      · have hieq : i = 1 + m := by omega
        subst hieq
        rw [List.getD_eq_getElem?_getD,
          List.getElem?_set_self (by rw [ihl]; omega), Option.getD_some]
        have e1 : res.getD (1 + m) 0 = ps.getD (1 + m) 0 := ih2 (1 + m) (by omega)
        have e2 : res.getD (1 + m - 1) 0 = prefixSumQ ps m := by
          have : 1 + m - 1 = m := by omega
          rw [this]
          exact ih1 m (le_refl m) (by omega)
      
        rw [e1, e2]
        have : 1 + m = m + 1 := by omega
        rw [this, prefixSumQ_succ]
        ring
    · intro i hi
      rw [List.getD_eq_getElem?_getD, List.getElem?_set_ne (by omega),
        ← List.getD_eq_getElem?_getD]
      exact ih2 i (by omega)

theorem findIdx?_some_spec (pr : ℚ → Bool) :
    ∀ (l : List ℚ) (s j : ℕ), List.findIdx? pr l s = some j →
      s ≤ j ∧ j - s < l.length ∧ pr (l.getD (j - s) 0) = true
        ∧ ∀ m, m < j - s → pr (l.getD m 0) = false := by
  intro l
  induction l with
  | nil =>
    intro s j h
    rw [List.findIdx?_nil] at h
    exact absurd h (by simp)
  | cons a t ih =>
    intro s j h
    rw [List.findIdx?_cons] at h
    by_cases hpa : pr a = true
    · rw [if_pos hpa] at h
      have hj : s = j := by simpa using h
      subst hj
      refine ⟨le_refl s, by simp, by simpa using hpa, by omega⟩
    · rw [if_neg hpa] at h
      obtain ⟨h1, h2, h3, h4⟩ := ih (s + 1) j h
      have hd : j - s = (j - (s + 1)) + 1 := by omega
      refine ⟨by omega, by rw [hd]; simpa using h2, ?_, ?_⟩
      · rw [hd, List.getD_cons_succ]
        exact h3
      · intro m hm
        cases m with
        | zero =>
          rw [List.getD_cons_zero]
          revert hpa
          cases pr a <;> simp
        | succ m' =>
          rw [List.getD_cons_succ]
          exact h4 m' (by omega)

theorem categorical_inv_cdf_safe (ps : List ℚ) (u : ℚ)
    (hne : ps ≠ []) (hmem : ∀ q ∈ ps, 0 ≤ q ∧ q ≤ 1) (hsum : ps.sum = 1)
    (hu0 : 0 ≤ u) (hu1 : u ≤ 1) :
    (Categorical.new ps).cumsum.getD (ps.length - 1) 0 = 1
      ∧ Categorical.inv_cdf (Categorical.new ps) u
          = (Categorical.new ps).cumsum.findIdx?
              (fun s => decide (0 < s) && decide (u ≤ s))
      ∧ (Categorical.inv_cdf (Categorical.new ps) u).isSome = true
      ∧ (Categorical.inv_cdf (Categorical.new ps) u).getD ps.length < ps.length
      ∧ 0 < ps.getD ((Categorical.inv_cdf (Categorical.new ps) 0).getD ps.length) 0
      ∧ (ps.take ((Categorical.inv_cdf (Categorical.new ps) 0).getD ps.length)).sum
          = 0 := by
  have hnn : ∀ q ∈ ps, 0 ≤ q := fun q hq => (hmem q hq).1
  set k := ps.length with hk
  have hk1 : 1 ≤ k := by
    rw [hk]
    exact List.length_pos.mpr hne
  obtain ⟨hflen, hf1, hf2⟩ := foldl_cumsumStep_spec ps (k - 2)
  set c0 := (List.range' 1 (k - 2)).foldl cumsumStep ps with hc0
  have hc : (Categorical.new ps).cumsum = c0.set (k - 1) 1 := rfl
  have hclen : (c0.set (k - 1) 1).length = k := by
    rw [List.length_set, hflen]
  have hlast : (c0.set (k - 1) 1).getD (k - 1) 0 = 1 := by
    rw [List.getD_eq_getElem?_getD,
      List.getElem?_set_self (by rw [hflen]; omega), Option.getD_some]
  have hmid : ∀ i, i < k - 1 → (c0.set (k - 1) 1).getD i 0 = prefixSumQ ps i := by
    intro i hi
    rw [List.getD_eq_getElem?_getD, List.getElem?_set_ne (by omega),
      ← List.getD_eq_getElem?_getD]
    exact hf1 i (by omega) (by omega)
  have hexists : ∀ v : ℚ, v ≤ 1 → ∃ j, (c0.set (k - 1) 1).findIdx?
      (fun s => decide (0 < s) && decide (v ≤ s)) = some j := by
    intro v hv
    have hlt : k - 1 < (c0.set (k - 1) 1).length := by rw [hclen]; omega
    have h1mem : (1 : ℚ) ∈ c0.set (k - 1) 1 := by
      have he : (c0.set (k - 1) 1)[k - 1]? = some 1 :=
        List.getElem?_set_self (by rw [hflen]; omega)
      rw [List.getElem?_eq_getElem hlt] at he
      have he2 : (c0.set (k - 1) 1)[k - 1] = 1 := Option.some_inj.mp he
      have hm := List.getElem_mem hlt
      rwa [he2] at hm
    have hany : (c0.set (k - 1) 1).any
        (fun s => decide (0 < s) && decide (v ≤ s)) = true :=
      List.any_eq_true.mpr ⟨1, h1mem, by
        rw [Bool.and_eq_true]
        exact ⟨decide_eq_true (by norm_num), decide_eq_true hv⟩⟩
    have hs : ((c0.set (k - 1) 1).findIdx?
        (fun s => decide (0 < s) && decide (v ≤ s))).isSome = true := by
      rw [List.findIdx?_isSome]
      exact hany
    exact Option.isSome_iff_exists.mp hs
  obtain ⟨i, hfi⟩ := hexists u hu1
  obtain ⟨i0, hfi0⟩ := hexists 0 (by norm_num)
  have hinv : Categorical.inv_cdf (Categorical.new ps) u = some i := by
    unfold Categorical.inv_cdf
    rw [hc, hfi]
  have hinv0 : Categorical.inv_cdf (Categorical.new ps) 0 = some i0 := by
    unfold Categorical.inv_cdf
    rw [hc, hfi0]
  obtain ⟨-, hiklen, -, -⟩ := findIdx?_some_spec _ _ 0 i hfi
  obtain ⟨-, hik0len, hp0i, hprev⟩ := findIdx?_some_spec _ _ 0 i0 hfi0
  rw [Nat.sub_zero] at hiklen hik0len hp0i hprev
  rw [hclen] at hiklen hik0len
  have hpos : 0 < (c0.set (k - 1) 1).getD i0 0 := by
    rw [Bool.and_eq_true, decide_eq_true_eq, decide_eq_true_eq] at hp0i
    exact hp0i.1
  have hle : ∀ m, m < i0 → (c0.set (k - 1) 1).getD m 0 ≤ 0 := by
    intro m hm
    by_contra hgt
    push_neg at hgt
    have ht : (decide (0 < (c0.set (k - 1) 1).getD m 0)
        && decide ((0 : ℚ) ≤ (c0.set (k - 1) 1).getD m 0)) = true := by
      rw [Bool.and_eq_true]
      exact ⟨decide_eq_true hgt, decide_eq_true (le_of_lt hgt)⟩
    rw [hprev m hm] at ht
    exact Bool.noConfusion ht
  have hpm : ∀ m, m < i0 → m < k - 1 → prefixSumQ ps m = 0 := by
    intro m hm hmk
    refine le_antisymm ?_ (prefixSumQ_nonneg ps hnn m)
    rw [← hmid m hmk]
    exact hle m hm
  have hF : (ps.take i0).sum = 0 := by
    cases hi0c : i0 with
    | zero => simp
    | succ j =>
      have hjk : j < k - 1 := by omega
      have hz := hpm j (by omega) hjk
      simpa [prefixSumQ] using hz
  have hE : 0 < ps.getD i0 0 := by
    rcases Nat.lt_or_ge i0 (k - 1) with hlt | hge
    · have hp : 0 < prefixSumQ ps i0 := by
        rw [← hmid i0 hlt] at *
        exact hpos
      cases hi0c : i0 with
      | zero =>
        rw [hi0c] at hp
        rwa [prefixSumQ_zero] at hp
      | succ j =>
        have hj0 : prefixSumQ ps j = 0 := hpm j (by omega) (by omega)
        rw [hi0c, prefixSumQ_succ, hj0] at hp
        simpa using hp
    · have hi0e : i0 = k - 1 := by omega
      have htake : prefixSumQ ps (k - 1) = ps.sum := by
        unfold prefixSumQ
        have hkk : k - 1 + 1 = k := by omega
        rw [hkk, hk]
        rw [List.take_length]
      by_cases hk2 : 2 ≤ k
      · have hz : prefixSumQ ps (k - 2) = 0 := by
          refine hpm (k - 2) (by omega) (by omega)
        have hstep : prefixSumQ ps (k - 1)
            = prefixSumQ ps (k - 2) + ps.getD (k - 1) 0 := by
          have hkk : k - 1 = (k - 2) + 1 := by omega
          rw [hkk, prefixSumQ_succ]
        rw [htake, hsum, hz] at hstep
        rw [hi0e]
        linarith
      · have hke : k = 1 := by omega
        have hi00 : i0 = 0 := by omega
        rw [hi00]
        have h0 : prefixSumQ ps 0 = ps.sum := by
          have : (0 : ℕ) = k - 1 := by omega
          rw [this, htake]
        rw [prefixSumQ_zero] at h0
        rw [h0, hsum]
        norm_num
  refine ⟨?_, ?_, ?_, ?_, ?_, ?_⟩
  · rw [hc]
    exact hlast
  · rw [hinv, hc, hfi]
  · rw [hinv]
    rfl
  · rw [hinv, Option.getD_some]
    exact hiklen
  · rw [hinv0, Option.getD_some]
    exact hE
  · rw [hinv0, Option.getD_some]
    exact hF

/-- Witness for C10 on the probability vector `[0, 1/2, 1/2]` (a leading
zero-probability category) at `u = 1/4`. -/
theorem categorical_inv_cdf_safe_witness :
    (Categorical.new [0, 1/2, 1/2]).cumsum.getD 2 0 = 1
      ∧ Categorical.inv_cdf (Categorical.new [0, 1/2, 1/2]) (1/4)
          = (Categorical.new [0, 1/2, 1/2]).cumsum.findIdx?
              (fun s => decide (0 < s) && decide ((1/4 : ℚ) ≤ s))
      ∧ (Categorical.inv_cdf (Categorical.new [0, 1/2, 1/2]) (1/4)).isSome = true
      ∧ (Categorical.inv_cdf (Categorical.new [0, 1/2, 1/2]) (1/4)).getD 3 < 3
      ∧ 0 < ([0, 1/2, 1/2] : List ℚ).getD
          ((Categorical.inv_cdf (Categorical.new [0, 1/2, 1/2]) 0).getD 3) 0
      ∧ (([0, 1/2, 1/2] : List ℚ).take
          ((Categorical.inv_cdf (Categorical.new [0, 1/2, 1/2]) 0).getD 3)).sum
          = 0 :=
  categorical_inv_cdf_safe [0, 1/2, 1/2] (1/4) (by simp)
    (by intro q hq; fin_cases hq <;> norm_num)
    (by norm_num) (by norm_num) (by norm_num)

/-! ## Gamma variate generation (`src/distribution/gamma.rs`)

The Marsaglia–Tsang sampler `gamma::sample(k, source)`. -/

/-- Abstract interface to a mutable random source of state type `σ`:
`read` is `source.read::<f64>()`, one uniform draw.  `gauss` is
`gaussian::sample(source)`, one standard normal draw.  Modelled from the
spec: the `distribution::gaussian` module is absent from this source
snapshot; per the spec it draws one standard normal deviate while consuming
a number of reads, so it is abstracted to an arbitrary state transformer. -/
structure GSource (σ : Type) where
  read : σ → ℚ × σ
  gauss : σ → ℚ × σ

/-- The inner `loop` of `gamma::sample`: read uniforms, skipping `u == 0`;
accept (`some value`) on the fast squeeze `u < 1 - 0.0331·x⁴` or on the
exact test `ln u < x²/2 + d(1 - v + ln v)`; otherwise break back to the
outer loop (`none` value).  `x2` and `v3` are the squared normal deviate
and the cubed `v` computed by the outer iteration. -/
def gammaInner {σ : Type} (ops : Ops) (src : GSource σ) (d x2 v3 : ℚ) :
    ℕ → σ → Option (Option ℚ × σ)
  | 0, _ => none
  | f + 1, s =>
    let r := src.read s
    if r.1 = 0 then gammaInner ops src d x2 v3 f r.2
    else if r.1 < 1 - 0.0331 * x2 * x2 then some (some (d * v3), r.2)
    else if ops.log r.1 < 0.5 * x2 + d * (1 - v3 + ops.log v3) then
      some (some (d * v3), r.2)
    else some (none, r.2)

/-- The outer rejection `loop` of `gamma::sample` for shape `k ≥ 1`:
draw a normal `x`, retry while `v = 1 + c·x ≤ 0`, then run the inner
accept/reject loop on `x²` and `v³`; an inner break retries the outer
loop. -/
def gammaLoop {σ : Type} (ops : Ops) (src : GSource σ) (d c : ℚ) :
    ℕ → σ → Option (ℚ × σ)
  | 0, _ => none
  | f + 1, s =>
    let g := src.gauss s
    let x := g.1
    let v := 1 + c * x
    if v ≤ 0 then gammaLoop ops src d c f g.2
    else
      match gammaInner ops src d (x * x) (v * v * v) (f + 1) g.2 with
      | none => none
      | some (some val, s2) => some (val, s2)
      | some (none, s2) => gammaLoop ops src d c f s2

/-- `gamma::sample(k, source)`: for `k < 1`, recursively sample at shape
`1 + k` and scale by `U^(1/k)` for a fresh uniform `U` read after the
recursive call; otherwise set `d = k - 1/3`, `c = (1/3)/sqrt(d)` and run
the rejection loop.  The first fuel bounds the recursion depth, the second
the rejection iterations. -/
def gammaSample {σ : Type} (ops : Ops) (src : GSource σ) :
    ℕ → ℚ → ℕ → σ → Option (ℚ × σ)
  | 0, _, _, _ => none
  | r + 1, k, lf, s =>
    if k < 1 then
      match gammaSample ops src r (1 + k) lf s with
      | none => none
      | some (g, s1) =>
        let u := src.read s1
        some (g * ops.powf u.1 (1 / k), u.2)
    else
      let d := k - 1 / 3
      let c := (1 / 3) / ops.sqrt d
      gammaLoop ops src d c lf s

/-- The continuation applied to the result of the recursive call in the
`k < 1` branch of `gamma::sample`: read one fresh uniform `U` and multiply
the draw by `U^(1/k)`. -/
def gammaScale {σ : Type} (ops : Ops) (src : GSource σ) (k : ℚ) :
    Option (ℚ × σ) → Option (ℚ × σ)
  | none => none
  | some (g, s1) => some (g * ops.powf (src.read s1).1 (1 / k), (src.read s1).2)

/-- C8: for `0 < k < 1` the sampler makes exactly one recursive call, at
shape `1 + k`; since `1 + k ≥ 1`, that call enters the non-recursive
rejection branch directly (recursion depth 1, and depth 0 for any shape
`k2 ≥ 1`), and the value returned is the `Gamma(1 + k)` draw multiplied by
`U^(1/k)` for one fresh uniform `U` read after the recursive call. -/
theorem gamma_sample_shape_lt_one (σ : Type) (ops : Ops) (src : GSource σ)
    (k k2 : ℚ) (rf lf : ℕ) (s : σ) (hk0 : 0 < k) (hk1 : k < 1) (hk2 : 1 ≤ k2) :
    (gammaSample ops src (rf + 2) k lf s
        = gammaScale ops src k (gammaLoop ops src ((1 + k) - 1/3)
            ((1/3) / ops.sqrt ((1 + k) - 1/3)) lf s))
      ∧ (1 : ℚ) ≤ 1 + k
      ∧ gammaSample ops src (rf + 1) k2 lf s
          = gammaLoop ops src (k2 - 1/3) ((1/3) / ops.sqrt (k2 - 1/3)) lf s := by
  have h1 : ¬ (1 + k < 1) := by linarith
  refine ⟨?_, by linarith, ?_⟩
  · simp only [gammaSample]
    rw [if_pos hk1, if_neg h1]
    cases hX : gammaLoop ops src (1 + k - 1/3) ((1/3) / ops.sqrt (1 + k - 1/3)) lf s with
    | none => rfl
    | some r => rfl
  · simp only [gammaSample]
    rw [if_neg (not_lt.mpr hk2)]

/-- The trivial source on the unit state used by the C8 witness. -/
def gsrcUnit : GSource Unit where
  read := fun _ => (1/2, ())
  gauss := fun _ => (0, ())

/-- Witness for C8 at `k = 1/2`, `k2 = 1`. -/
theorem gamma_sample_shape_lt_one_witness :
    (gammaSample ops0 gsrcUnit (0 + 2) (1/2) 3 ()
        = gammaScale ops0 gsrcUnit (1/2) (gammaLoop ops0 gsrcUnit ((1 + 1/2) - 1/3)
            ((1/3) / ops0.sqrt ((1 + 1/2) - 1/3)) 3 ()))
      ∧ (1 : ℚ) ≤ 1 + 1/2
      ∧ gammaSample ops0 gsrcUnit (0 + 1) 1 3 ()
          = gammaLoop ops0 gsrcUnit (1 - 1/3) ((1/3) / ops0.sqrt (1 - 1/3)) 3 () :=
  gamma_sample_shape_lt_one Unit ops0 gsrcUnit (1/2) 1 0 3 ()
    (by norm_num) (by norm_num) (by norm_num)

/-! ## Binomial quantile (`src/distribution/binomial.rs`, `Binomial::inverse`)

The three-regime adaptive dispatch: term-by-term summation for `n < 1000`,
a normal-approximation correction series for `n ≥ 1000` with `npq > 80`,
and damped Newton iteration from the mode otherwise. -/

/-- `(Binomial::new(n, p)).n`. -/
@[simp] theorem Binomial.new_n (n : ℕ) (p : ℚ) : (Binomial.new n p).n = n := rfl
/-- `(Binomial::new(n, p)).p`. -/
@[simp] theorem Binomial.new_p (n : ℕ) (p : ℚ) : (Binomial.new n p).p = p := rfl
/-- `(Binomial::new(n, p)).q`. -/
@[simp] theorem Binomial.new_q (n : ℕ) (p : ℚ) : (Binomial.new n p).q = 1 - p := rfl
/-- `(Binomial::new(n, p)).np`. -/
@[simp] theorem Binomial.new_np (n : ℕ) (p : ℚ) :
    (Binomial.new n p).np = (n : ℚ) * p := rfl
/-- `(Binomial::new(n, p)).nq`. -/
@[simp] theorem Binomial.new_nq (n : ℕ) (p : ℚ) :
    (Binomial.new n p).nq = (n : ℚ) * (1 - p) := rfl
/-- `(Binomial::new(n, p)).npq`. -/
@[simp] theorem Binomial.new_npq (n : ℕ) (p : ℚ) :
    (Binomial.new n p).npq = (n : ℚ) * p * (1 - p) := rfl

/-- The sum `Σ_{j'=j}^{j+cnt-1} C(m, j') x^j' (1-x)^(m-j')`. -/
def binomSumFrom (m : ℕ) (x : ℚ) : ℕ → ℕ → ℚ
  | _, 0 => 0
  | j, cnt + 1 =>
    (Nat.choose m j : ℚ) * x ^ j * (1 - x) ^ (m - j) + binomSumFrom m x (j + 1) cnt

/-- Modelled from the spec: the regularized incomplete beta function
`I_x(a, b)` of the external `special` crate, which the spec treats as an
exact oracle; at the integer parameters passed by `Binomial::distribution`
it has the exact closed form `Σ_{j=a}^{a+b-1} C(a+b-1, j) x^j (1-x)^(a+b-1-j)`
(the `ln_beta` normalizer passed alongside does not change the value). -/
def incBetaOracle (x : ℚ) (a b : ℕ) : ℚ := binomSumFrom (a + b - 1) x a b

/-- `Binomial::distribution` (the CDF): `0` below the support, `q^n` at
`x = 0`, `1` from `n` upward, and the regularized incomplete beta function
`I_q(n - x, x + 1)` in between. -/
def Binomial.distribution (d : Binomial) (x : ℚ) : ℚ :=
  if x < 0 then 0
  else
    let k := f64toUsize x
    if k = 0 then d.q ^ d.n
    else if d.n ≤ k then 1
    else incBetaOracle d.q (d.n - k) (k + 1)

/-- `Binomial::modes`. -/
def Binomial.modes (d : Binomial) : List ℕ :=
  let r := d.p * ((d.n + 1 : ℕ) : ℚ)
  if r = 0 then [0]
  else if d.p = 1 then [d.n]
  else if r - ((⌊r⌋ : ℤ) : ℚ) ≠ 0 then [f64toUsize r]
  else [f64toUsize r - 1, f64toUsize r]

/-- Modelled from the spec: the standard-normal quantile
`distribution::gaussian::inverse`; its module is absent from this source
snapshot, and per the spec (§4.3) it is the same four-branch AS241 rational
scheme as `Gaussian::inv_cdf`, at mean 0 and deviation 1, used only at
probabilities strictly inside `(0, 1)` where the result is finite. -/
def gaussianInverse (ops : Ops) (u : ℚ) : ℚ :=
  match Gaussian.inv_cdf ops (Gaussian.new 0 1) u with
  | F64.fin v => v
  | _ => 0

/-- The normal-approximation correction series (Moorhead 2013, p. 7) of
`Binomial::inverse`: a multi-order expansion in the standard-normal quantile
`w` and the reciprocal standard deviation, transcribed term by term. -/
def inverse_normal (ops : Ops) (p np v u : ℚ) : ℚ :=
  let w := gaussianInverse ops u
  let w2 := w * w
  let w3 := w2 * w
  let w4 := w3 * w
  let w5 := w4 * w
  let w6 := w5 * w
  let sd := ops.sqrt v
  let sd_em1 := sd⁻¹
  let sd_em2 := v⁻¹
  let sd_em3 := sd_em1 * sd_em2
  let sd_em4 := sd_em2 * sd_em2
  let p2 := p * p
  let p3 := p2 * p
  let p4 := p2 * p2
  np +
  sd * w +
  (p + 1) / 3 -
  (2 * p - 1) * w2 / 6 +
  sd_em1 * w3 * (2 * p2 - 2 * p - 1) / 72 -
  w * (7 * p2 - 7 * p + 1) / 36 +
  sd_em2 * (2 * p - 1) * (p + 1) * (p - 2) * (3 * w4 + 7 * w2 - 16 / 1620) +
  sd_em3 * (
    w5 * (4 * p4 - 8 * p3 - 48 * p2 + 52 * p - 23) / 17280 +
    w3 * (256 * p4 - 512 * p3 - 147 * p2 + 403 * p - 137) / 38880 -
    w * (433 * p4 - 866 * p3 - 921 * p2 + 1354 * p - 671) / 38880
  ) +
  sd_em4 * (
    w6 * (2 * p - 1) * (p2 - p + 1) * (p2 - p + 19) / 34020 +
    w4 * (2 * p - 1) * (9 * p4 - 18 * p3 - 35 * p2 + 44 * p - 25) / 15120 +
    w2 * (2 * p - 1) * (
      923 * p4 - 1846 * p3 + 5271 * p2 - 4348 * p + 5189
    ) / 408240 -
    4 * (2 * p - 1) * (p + 1) * (p - 2) * (23 * p2 - 23 * p + 2) / 25515
  )

/-- The `sum_bottom_up!` macro of `Binomial::inverse`: starting from
`k = 1`, `a = q^n`, `sum = a - p`, multiply `a` by the supplied term and
accumulate while `sum < 0`, returning `k - 1`. -/
def sum_bottom_up (term : ℕ → ℚ) : ℕ → ℕ → ℚ → ℚ → Option ℕ
  | 0, _, _, _ => none
  | f + 1, k, a, s =>
    if s < 0 then
      let a1 := a * term k
      sum_bottom_up term f (k + 1) a1 (s + a1)
    else some (k - 1)

/-- The `sum_top_down!` macro of `Binomial::inverse`: starting from `k = 1`,
`a = p^n`, `sum = (1 - p) - a`, multiply `a` by the supplied term and
subtract while `sum ≥ 0`, returning `n - k + 1` (written `n + 1 - k`, which
agrees with the wrapping `usize` value for every `k ≤ n + 1`). -/
def sum_top_down (n : ℕ) (term : ℕ → ℚ) : ℕ → ℕ → ℚ → ℚ → Option ℕ
  | 0, _, _, _ => none
  | f + 1, k, a, s =>
    if 0 ≤ s then
      let a1 := a * term k
      sum_top_down n term f (k + 1) a1 (s - a1)
    else some (n + 1 - k)

/-- The Newton loop of `Binomial::inverse`: from the current point `q` and
damping `alpha` (initially 1), step by
`alpha * (p - cdf(q)) / mass(q as usize)`, return `q as usize` once the step
is below `0.5` in magnitude, and multiply `alpha` by `ALPHA = 0.999` after
every iteration. -/
def newton_loop (ops : Ops) (mf : ℕ) (d : Binomial) (p : ℚ) :
    ℕ → ℚ → ℚ → Option ℕ
  | 0, _, _ => none
  | f + 1, q, alpha =>
    let delta := alpha * (p - Binomial.distribution d q)
      / Binomial.mass ops mf d (f64toUsize q)
    if |delta| < 0.5 then some (f64toUsize q)
    else newton_loop ops mf d p f (q + delta) (alpha * 0.999)

/-- `Binomial::inverse`, embedded from the source: `p = 0` and `p = 1` are
answered directly; for `n < 1000` the bottom-up or top-down summation is
chosen by comparing `p` against `cdf(n / 2)`; for `npq > 80` the normal
approximation is evaluated once and floored; otherwise Newton iteration
starts at the first mode.  `fuel` bounds the loop iterations (the Newton
loop of the source has no termination guard). -/
def Binomial.inverse (ops : Ops) (fuel : ℕ) (d : Binomial) (p : ℚ) : Option ℕ :=
  if p = 0 then some 0
  else if p = 1 then some d.n
  else if d.n < 1000 then
    if p ≤ Binomial.distribution d ((d.n / 2 : ℕ) : ℚ) then
      sum_bottom_up (fun k => d.p / d.q * (((d.n - k + 1 : ℕ) : ℚ) / (k : ℚ)))
        fuel 1 (d.q ^ d.n) (d.q ^ d.n - p)
    else
      sum_top_down d.n (fun k => d.q / d.p * (((d.n - k + 1 : ℕ) : ℚ) / (k : ℚ)))
        fuel 1 (d.p ^ d.n) ((1 - p) - d.p ^ d.n)
  else if 80 < d.npq then some (f64toUsize (inverse_normal ops d.p d.np d.npq p))
  else newton_loop ops fuel d p fuel (((d.modes.headD 0 : ℕ) : ℚ)) 1

/-- The specification's bottom-up regime: term-by-term summation of masses
starting at `x = 0`, carrying the running mass `m` and the cumulative
probability `c`, multiplying the mass by the ratio `(p/q)·(n-k+1)/k` at the
`k`-th step (`k = x + 1`), and returning the first `x` whose cumulative
probability reaches the target `u`. -/
def specBottomUp (d : Binomial) (u : ℚ) : ℕ → ℕ → ℚ → ℚ → Option ℕ
  | 0, _, _, _ => none
  | f + 1, x, m, c =>
    if u ≤ c then some x
    else
      let k := x + 1
      let m1 := m * (d.p / d.q * (((d.n - k + 1 : ℕ) : ℚ) / (k : ℚ)))
      specBottomUp d u f (x + 1) m1 (c + m1)

/-- The top-down regime as amended: summation of masses starting at `x = n`
with step counter `k` (starting at 1), multiplying the running mass by the
ratio `(q/p)·(n-k+1)/k` at the `k`-th step, and returning the first `x`
whose mass accumulated from the top strictly exceeds `1 - u`. -/
def specTopDown (d : Binomial) (u : ℚ) : ℕ → ℕ → ℕ → ℚ → ℚ → Option ℕ
  | 0, _, _, _, _ => none
  | f + 1, x, k, m, c =>
    if 1 - u < c then some x
    else
      let m1 := m * (d.q / d.p * (((d.n - k + 1 : ℕ) : ℚ) / (k : ℚ)))
      specTopDown d u f (x - 1) (k + 1) m1 (c + m1)

/-- The Newton regime as amended: damped Newton iteration from the mode with
step `alpha·((u - cdf(x)) / mass(⌊x⌋))`, the damping `alpha` starting at 1
and shrinking by the factor `0.999` each iteration, returning `⌊x⌋` as soon
as the step magnitude is below `0.5`. -/
def specNewton (ops : Ops) (mf : ℕ) (d : Binomial) (u : ℚ) :
    ℕ → ℚ → ℚ → Option ℕ
  | 0, _, _ => none
  | f + 1, x, alpha =>
    let step := alpha * ((u - Binomial.distribution d x)
      / Binomial.mass ops mf d (f64toUsize x))
    if |step| < 0.5 then some (f64toUsize x)
    else specNewton ops mf d u f (x + step) (alpha * 0.999)

/-- The three-regime dispatch of the amended claim for `0 < u < 1`:
summation (bottom-up when `u ≤ cdf(n/2)`, else top-down) for `n < 1000`;
the normal-approximation correction series, evaluated once and floored,
for `n ≥ 1000` with `n·p·q > 80`; damped Newton iteration from the mode
otherwise. -/
def binomialQuantileSpec (ops : Ops) (fuel : ℕ) (d : Binomial) (u : ℚ) :
    Option ℕ :=
  if d.n < 1000 then
    if u ≤ Binomial.distribution d ((d.n / 2 : ℕ) : ℚ) then
      specBottomUp d u fuel 0 (d.q ^ d.n) (d.q ^ d.n)
    else specTopDown d u fuel d.n 1 (d.p ^ d.n) (d.p ^ d.n)
  else if 80 < d.npq then
    some (f64toUsize (inverse_normal ops d.p d.np d.npq u))
  else specNewton ops fuel d u fuel (((d.modes.headD 0 : ℕ) : ℚ)) 1

/-- The claim's top-down regime as literally stated: the running-mass ratio
is `(p/q)·(n-k+1)/k` — the same ratio as in the bottom-up direction — rather
than its reciprocal. -/
def claimTopDown (d : Binomial) (u : ℚ) : ℕ → ℕ → ℕ → ℚ → ℚ → Option ℕ
  | 0, _, _, _, _ => none
  | f + 1, x, k, m, c =>
    if 1 - u < c then some x
    else
      let m1 := m * (d.p / d.q * (((d.n - k + 1 : ℕ) : ℚ) / (k : ℚ)))
      claimTopDown d u f (x - 1) (k + 1) m1 (c + m1)

/-- The claim's Newton regime as literally stated: undamped step
`(u - cdf(x)) / mass(⌊x⌋)`. -/
def claimNewton (ops : Ops) (mf : ℕ) (d : Binomial) (u : ℚ) :
    ℕ → ℚ → Option ℕ
  | 0, _ => none
  | f + 1, x =>
    let step := (u - Binomial.distribution d x)
      / Binomial.mass ops mf d (f64toUsize x)
    if |step| < 0.5 then some (f64toUsize x)
    else claimNewton ops mf d u f (x + step)

/-- The three-regime dispatch exactly as claim C1 states it (uniform ratio
`(p/q)·(n-k+1)/k` in both summation directions, undamped Newton step). -/
def binomialQuantileClaim (ops : Ops) (fuel : ℕ) (d : Binomial) (u : ℚ) :
    Option ℕ :=
  if d.n < 1000 then
    if u ≤ Binomial.distribution d ((d.n / 2 : ℕ) : ℚ) then
      specBottomUp d u fuel 0 (d.q ^ d.n) (d.q ^ d.n)
    else claimTopDown d u fuel d.n 1 (d.p ^ d.n) (d.p ^ d.n)
  else if 80 < d.npq then
    some (f64toUsize (inverse_normal ops d.p d.np d.npq u))
  else claimNewton ops fuel d u fuel (((d.modes.headD 0 : ℕ) : ℚ))

/-- The code's bottom-up loop and the specification's cumulative-probability
formulation coincide: with `k = x + 1` and `sum = c - u` they are in
lockstep. -/
theorem sum_bottom_up_eq_spec (d : Binomial) (u : ℚ) :
    ∀ f x m c,
      sum_bottom_up (fun k => d.p / d.q * (((d.n - k + 1 : ℕ) : ℚ) / (k : ℚ)))
          f (x + 1) m (c - u)
        = specBottomUp d u f x m c := by
  intro f
  induction f with
  | zero => intro x m c; rfl
  | succ g ih =>
    intro x m c
    simp only [sum_bottom_up, specBottomUp]
    by_cases h : u ≤ c
    · rw [if_neg (by linarith : ¬ c - u < 0), if_pos h]
      simp
    · rw [if_pos (by linarith : c - u < 0), if_neg h]
      have e : c - u + m * (d.p / d.q * (((d.n - (x + 1) + 1 : ℕ) : ℚ) / ((x + 1 : ℕ) : ℚ)))
          = (c + m * (d.p / d.q * (((d.n - (x + 1) + 1 : ℕ) : ℚ) / ((x + 1 : ℕ) : ℚ)))) - u := by
        ring
      rw [e]
      exact ih (x + 1) _ _

/-- The code's top-down loop and the amended claim's cumulative-mass
formulation coincide: with `x = n + 1 - k` and `sum = (1 - u) - c` they are
in lockstep. -/
theorem sum_top_down_eq_spec (d : Binomial) (u : ℚ) :
    ∀ f k m c,
      sum_top_down d.n (fun j => d.q / d.p * (((d.n - j + 1 : ℕ) : ℚ) / (j : ℚ)))
          f k m ((1 - u) - c)
        = specTopDown d u f (d.n + 1 - k) k m c := by
  intro f
  induction f with
  | zero => intro k m c; rfl
  | succ g ih =>
    intro k m c
    simp only [sum_top_down, specTopDown]
    by_cases h : 1 - u < c
    · rw [if_neg (by linarith : ¬ 0 ≤ 1 - u - c), if_pos h]
    · rw [if_pos (by linarith : 0 ≤ 1 - u - c), if_neg h]
      have e : 1 - u - c - m * (d.q / d.p * (((d.n - k + 1 : ℕ) : ℚ) / ((k : ℕ) : ℚ)))
          = (1 - u) - (c + m * (d.q / d.p * (((d.n - k + 1 : ℕ) : ℚ) / ((k : ℕ) : ℚ)))) := by
        ring
      rw [e]
      have e2 : d.n + 1 - k - 1 = d.n + 1 - (k + 1) := by omega
      rw [e2]
      exact ih (k + 1) _ _

/-- The code's damped Newton loop and the amended claim's formulation
coincide (the only difference is the association of the damping factor with
the quotient). -/
theorem newton_loop_eq_spec (ops : Ops) (mf : ℕ) (d : Binomial) (u : ℚ) :
    ∀ f x alpha,
      newton_loop ops mf d u f x alpha = specNewton ops mf d u f x alpha := by
  intro f
  induction f with
  | zero => intro x alpha; rfl
  | succ g ih =>
    intro x alpha
    simp only [newton_loop, specNewton]
    have e : alpha * (u - Binomial.distribution d x)
          / Binomial.mass ops mf d (f64toUsize x)
        = alpha * ((u - Binomial.distribution d x)
          / Binomial.mass ops mf d (f64toUsize x)) := by
      ring
    rw [e]
    split_ifs with hs
    · rfl
    · exact ih _ _

/-- C1 (amended): for every `Binomial(n, p)` with `0 < p < 1` and every
probability `0 < u < 1`, `inverse(u)` is computed by the three-regime
dispatch of `binomialQuantileSpec`: bottom-up/top-down mass summation for
`n < 1000` (ratio `(p/q)·(n-k+1)/k` bottom-up and `(q/p)·(n-k+1)/k`
top-down), the floored normal-approximation series for `n ≥ 1000` with
`npq > 80`, and damped Newton iteration from the mode otherwise. -/
theorem binomial_inverse_three_regimes (ops : Ops) (fuel n : ℕ) (p u : ℚ)
    (hp0 : 0 < p) (hp1 : p < 1) (hu0 : 0 < u) (hu1 : u < 1) :
    Binomial.inverse ops fuel (Binomial.new n p) u
      = binomialQuantileSpec ops fuel (Binomial.new n p) u := by
  unfold Binomial.inverse binomialQuantileSpec
  rw [if_neg (ne_of_gt hu0), if_neg (ne_of_lt hu1)]
  by_cases h1 : (Binomial.new n p).n < 1000
  · rw [if_pos h1, if_pos h1]
    by_cases h2 : u ≤ Binomial.distribution (Binomial.new n p)
        (((Binomial.new n p).n / 2 : ℕ) : ℚ)
    · rw [if_pos h2, if_pos h2]
      have h := sum_bottom_up_eq_spec (Binomial.new n p) u fuel 0
        ((Binomial.new n p).q ^ (Binomial.new n p).n)
        ((Binomial.new n p).q ^ (Binomial.new n p).n)
      simpa using h
    · rw [if_neg h2, if_neg h2]
      have h := sum_top_down_eq_spec (Binomial.new n p) u fuel 1
        ((Binomial.new n p).p ^ (Binomial.new n p).n)
        ((Binomial.new n p).p ^ (Binomial.new n p).n)
      simpa using h
  · rw [if_neg h1, if_neg h1]
    by_cases h3 : 80 < (Binomial.new n p).npq
    · rw [if_pos h3, if_pos h3]
    · rw [if_neg h3, if_neg h3]
      exact newton_loop_eq_spec ops fuel (Binomial.new n p) u fuel _ 1

/-- Witness for the amended C1 at `Binomial(6, 3/4)`, `u = 53/128`. -/
theorem binomial_inverse_three_regimes_witness :
    Binomial.inverse ops0 6 (Binomial.new 6 (3/4)) (53/128)
      = binomialQuantileSpec ops0 6 (Binomial.new 6 (3/4)) (53/128) :=
  binomial_inverse_three_regimes ops0 6 6 (3/4) (53/128)
    (by norm_num) (by norm_num) (by norm_num) (by norm_num)

/-- C1 (counterexample): at `Binomial(6, 3/4)` and `u = 53/128` the
procedure exactly as the claim states it (top-down ratio `(p/q)·(n-k+1)/k`)
returns 5, while the code returns 4 — and 4 is the correct quantile, since
`cdf(3) < 53/128 ≤ cdf(4)`. -/
theorem binomial_inverse_claim_counterexample :
    binomialQuantileClaim ops0 6 (Binomial.new 6 (3/4)) (53/128) = some 5
      ∧ Binomial.inverse ops0 6 (Binomial.new 6 (3/4)) (53/128) = some 4
      ∧ Binomial.distribution (Binomial.new 6 (3/4)) 3 < 53/128
      ∧ (53/128 : ℚ) ≤ Binomial.distribution (Binomial.new 6 (3/4)) 4 := by
  have hd3 : Binomial.distribution (Binomial.new 6 (3/4)) 3 = 694/4096 := by
    simp [Binomial.distribution, Binomial.new, incBetaOracle, binomSumFrom,
      f64toUsize, Nat.choose]
    norm_num
  have hd4 : Binomial.distribution (Binomial.new 6 (3/4)) 4 = 1909/4096 := by
    simp [Binomial.distribution, Binomial.new, incBetaOracle, binomSumFrom,
      f64toUsize, Nat.choose]
    norm_num
  have harg : (((Binomial.new 6 (3/4)).n / 2 : ℕ) : ℚ) = 3 := by norm_num
  refine ⟨?_, ?_, by rw [hd3]; norm_num, by rw [hd4]; norm_num⟩
  · unfold binomialQuantileClaim
    rw [harg, hd3]
    rw [if_pos (by norm_num : (Binomial.new 6 (3/4)).n < 1000),
      if_neg (by norm_num : ¬ (53/128 : ℚ) ≤ 694/4096)]
    simp [claimTopDown, Binomial.new]
    norm_num
  · unfold Binomial.inverse
    rw [if_neg (by norm_num : (53/128 : ℚ) ≠ 0), if_neg (by norm_num : (53/128 : ℚ) ≠ 1)]
    rw [harg, hd3]
    rw [if_pos (by norm_num : (Binomial.new 6 (3/4)).n < 1000),
      if_neg (by norm_num : ¬ (53/128 : ℚ) ≤ 694/4096)]
    simp [sum_top_down, Binomial.new]
    norm_num
